import Mathlib

/-!
Verification development for the ftabgen curve-to-table pipeline
(`ftabgen.py`): quantization, table-body formatting, and C source/header
emission, together with a rational-number model of the cubic-spline
interpolation stage.

Real-valued samples are modelled by `ℚ`; Python integers by `ℤ`/`ℕ`;
Python strings by `String` built with explicit list-of-character
rendering so that every definition is executable.
-/

namespace Ftabgen

/-! ### Decimal rendering (models Python `str(int)` and `f"{y:>6}"`) -/

/-- The ASCII digit character for `n < 10` (models Python decimal digits). -/
def digitChar (n : ℕ) : Char := Char.ofNat (48 + n)

/-- Fuel-driven decimal rendering of a natural number, most significant
digit first.  `natReprAux (n+1) n` renders `n` fully. -/
def natReprAux : ℕ → ℕ → List Char
  | 0, _ => []
  | f + 1, n =>
    if n < 10 then [digitChar n]
    else natReprAux f (n / 10) ++ [digitChar (n % 10)]

/-- Decimal rendering of a natural number (models Python `str(n)`). -/
def natRepr (n : ℕ) : List Char := natReprAux (n + 1) n

/-- Decimal rendering of an integer with a leading minus sign for
negative values (models Python `str(y)` for `int` values). -/
def intRepr (y : ℤ) : List Char :=
  if y < 0 then '-' :: natRepr (-y).toNat else natRepr y.toNat

/-- `natRepr` packaged as a `String`. -/
def natStr (n : ℕ) : String := ⟨natRepr n⟩

/-- `intRepr` packaged as a `String`. -/
def intStr (y : ℤ) : String := ⟨intRepr y⟩

/-- ASCII upper-casing of a string, character by character (models
Python `str.upper()` on identifier-safe table names). -/
def strUpper (s : String) : String := ⟨s.data.map Char.toUpper⟩

/-- Right-alignment of an integer in a 6-character column, padding with
spaces on the left (models the Python format directive `f"{y:>6}"`;
values needing more than 6 characters are not truncated). -/
def padStr (y : ℤ) : String := ⟨List.replicate (6 - (intRepr y).length) ' ' ++ intRepr y⟩

/-! ### Quantizer (from `generate_table_body`, `ftabgen.py` line 245) -/

/-- Truncation of a rational toward zero (models Python `int(float)`). -/
def ratTrunc (q : ℚ) : ℤ := if 0 ≤ q then ⌊q⌋ else ⌈q⌉

/-- One quantization step of `generate_table_body`:
`y = int(raw_y*(g_range - 1))`, with the output range `r` passed
explicitly in place of the global `g_range`. -/
def quantizeVal (r : ℕ) (s : ℚ) : ℤ := ratTrunc (s * ((r : ℚ) - 1))

/-- The quantized integer sequence produced by the loop of
`generate_table_body` from a sample sequence. -/
def quantizeList (r : ℕ) (samples : List ℚ) : List ℤ := samples.map (quantizeVal r)

/-- Written from the spec for comparison with the code: the quantizer the
specification describes, `floor(((s - yMin) / (yMax - yMin)) * (range - 1))`
clamped into `[0, range-1]`.  The function under `src/` is `quantizeVal`. -/
def quantizeSpecVal (r : ℕ) (yMin yMax s : ℚ) : ℤ :=
  max 0 (min ((r : ℤ) - 1) ⌊((s - yMin) / (yMax - yMin)) * ((r : ℚ) - 1)⌋)

/-! ### Table formatter (from `generate_table_body`, `ftabgen.py` 242-250) -/

/-- The text appended for the value `y` at (1-based) position `cnt` by one
iteration of the loop of `generate_table_body`:
`(f"{' ' if cnt == 1 else ','}{y:>6}" + ("\n" if cnt % columns == 0 else "")
+ ("\n" if cnt % (columns*4) == 0 else ""))` with `columns = 8`. -/
def chunk (cnt : ℕ) (y : ℤ) : String :=
  (if cnt = 1 then " " else ",") ++ padStr y ++
  (if cnt % 8 = 0 then "\n" else "") ++ (if cnt % 32 = 0 then "\n" else "")

/-- The accumulating loop of `generate_table_body`, with the running
counter `cnt` made explicit (the source starts it at 1). -/
def formatAux : List ℤ → ℕ → String
  | [], _ => ""
  | y :: ys, cnt => chunk cnt y ++ formatAux ys (cnt + 1)

/-- The formatted table body for a list of already-quantized integers
(the loop of `generate_table_body` with `cnt` starting at 1). -/
def formatBody (ys : List ℤ) : String := formatAux ys 1

/-- `generate_table_body` from the source: quantize each interpolated
sample with `int(raw_y*(g_range - 1))` and lay the results out with
`chunk`. -/
def generate_table_body (r : ℕ) (interp_spline_y : List ℚ) : String :=
  formatBody (quantizeList r interp_spline_y)

/-- Written from the claim for comparison with the code: the text the
claim assigns to the value at 0-based position `i` (comma before every
value except the first, 6-character right-aligned column, line break
after every 8th value, blank line after every 32nd). -/
def chunkSpec (i : ℕ) (y : ℤ) : String :=
  (if i = 0 then " " else ",") ++ padStr y ++
  (if (i + 1) % 8 = 0 then "\n" else "") ++ (if (i + 1) % 32 = 0 then "\n" else "")

/-- Concatenation of a list of strings. -/
def strConcat : List String → String
  | [] => ""
  | s :: l => s ++ strConcat l

/-- The number of consecutive `'\n'` characters at the end of a string. -/
def trailingNL (s : String) : ℕ := (s.data.reverse.takeWhile (fun c => c == '\n')).length

/-! ### Source emitter (from `generate_source_files`, `ftabgen.py` 254-308) -/

/-- `domain_mask` from `generate_source_files`, with the global
`g_domain` passed explicitly. -/
def domain_mask (d : ℕ) : String :=
  if d = 128 then "0x7F"
  else if d = 256 then "0xFF"
  else if d = 512 then "0x1FF"
  else if d = 1024 then "0x3FF"
  else "??"

/-- The constant `gc_byte_range = 256`. -/
def gc_byte_range : ℕ := 256

/-- `elem_type` from `generate_source_files`: `"uint16"` when
`g_range > gc_byte_range`, else `"uint8"`. -/
def elem_type (r : ℕ) : String := if gc_byte_range < r then "uint16" else "uint8"

/-- `auto_gen_label` from `generate_source_files`. -/
def auto_gen_label : String := "/* AUTOGENERATED FILE. DO NOT EDIT. */"

/-- The include-guard symbol `define = f"{g_table_name.upper()}_H_"`. -/
def defineName (name : String) : String := strUpper name ++ "_H_"

/-- `domain_and_range` from `generate_source_files`. -/
def domain_and_range (d r : ℕ) : String :=
  "/*\n" ++
  "  Domain: 0.." ++ intStr ((d : ℤ) - 1) ++ "\n" ++
  "  Range:  0.." ++ intStr ((r : ℤ) - 1) ++ "\n" ++
  "*/"

/-- `table_inc_body` from `generate_source_files`: the generated header
text. -/
def table_inc_body (name : String) (d r : ℕ) : String :=
  auto_gen_label ++ "\n" ++
  domain_and_range d r ++ "\n" ++
  "#ifndef " ++ defineName name ++ "\n" ++
  "#define " ++ defineName name ++ "\n\n" ++
  "#define " ++ strUpper (elem_type r) ++ "_" ++ strUpper name ++ "(x) " ++
    name ++ "[(x) & " ++ domain_mask d ++ "]\n" ++
  elem_type r ++ "_t " ++ name ++ "[];\n\n" ++
  "#endif /* " ++ defineName name ++ " */\n"

/-- `table_src_head` from `generate_source_files`: the head of the
generated source text, up to and including the opening brace line. -/
def table_src_head (name : String) (d r : ℕ) : String :=
  auto_gen_label ++ "\n" ++
  domain_and_range d r ++ "\n" ++
  "#include \"" ++ name ++ ".h\"\n\n" ++
  elem_type r ++ "_t " ++ name ++ "[" ++ natStr d ++ "] =\n" ++
  "\x7b\n"

/-- `table_src_tail` from `generate_source_files`. -/
def table_src_tail : String := "\x7d;\n"

/-! ### Cubic-spline interpolation stage

The interpolation itself is performed by `scipy.interpolate.interp1d`
(`kind='cubic'`) and `numpy.linspace`, whose code is not part of this
repository, so this stage is modelled from the specification. -/

/-- Modelled from the spec: `numpy.linspace(lo, hi, n)` as used by
`plot_curve` — `n` evenly spaced values from `lo` to `hi` inclusive. -/
def linspace (lo hi : ℚ) (n : ℕ) : List ℚ :=
  (List.range n).map (fun k : ℕ => lo + (hi - lo) * (k : ℚ) / ((n : ℚ) - 1))

/-- Evaluation of one cubic segment of a spline in the standard form
`y_i + b_i t + c_i t² + d_i t³` with `t = x - x_i`, where the
coefficients `b_i`, `d_i` are derived from the segment's second-derivative
coefficients `c_i`, `c_{i+1}` in the usual way. -/
def evalSeg (xi xi1 yi yi1 ci ci1 x : ℚ) : ℚ :=
  let h := xi1 - xi
  let b := (yi1 - yi) / h - h * (2 * ci + ci1) / 3
  let d := (ci1 - ci) / (3 * h)
  let t := x - xi
  yi + b * t + ci * t ^ 2 + d * t ^ 3

/-- Piecewise evaluation of the cubic spline: locate the segment whose
right knot is the first knot `≥ x` (falling back to the last segment)
and evaluate that segment. -/
def evalWithCs : List ℚ → List ℚ → List ℚ → ℚ → ℚ
  | x0 :: x1 :: x2 :: xs, y0 :: y1 :: ys, cs, x =>
    if x ≤ x1 then evalSeg x0 x1 y0 y1 (cs.getD 0 0) (cs.getD 1 0) x
    else evalWithCs (x1 :: x2 :: xs) (y1 :: ys) (cs.drop 1) x
  | x0 :: x1 :: _, y0 :: y1 :: _, cs, x =>
    evalSeg x0 x1 y0 y1 (cs.getD 0 0) (cs.getD 1 0) x
  | _, _, _, _ => 0

/-- The interior rows `(sub, diag, sup, rhs)` of the natural cubic
spline tridiagonal system for knots `xs` and values `ys`. -/
def interiorRows : List ℚ → List ℚ → List (ℚ × ℚ × ℚ × ℚ)
  | xm :: xi :: xp :: xrest, ym :: yi :: yp :: yrest =>
    let h0 := xi - xm
    let h1 := xp - xi
    (h0, 2 * (h0 + h1), h1, 3 * ((yp - yi) / h1 - (yi - ym) / h0)) ::
      interiorRows (xi :: xp :: xrest) (yi :: yp :: yrest)
  | _, _ => []

/-- Forward sweep of the Thomas algorithm: from rows `(a, b, c, r)` and
the previous sweep coefficients, produce the `(c', d')` pairs. -/
def thomasFwd : List (ℚ × ℚ × ℚ × ℚ) → ℚ → ℚ → List (ℚ × ℚ)
  | [], _, _ => []
  | (a, b, c, r) :: rows, cp, dp =>
    let den := b - a * cp
    let cp1 := c / den
    let dp1 := (r - a * dp) / den
    (cp1, dp1) :: thomasFwd rows cp1 dp1

/-- Back substitution of the Thomas algorithm over the reversed sweep
coefficients. -/
def thomasBack : List (ℚ × ℚ) → ℚ → List ℚ
  | [], _ => []
  | (cp, dp) :: rest, xnext =>
    let xi := dp - cp * xnext
    xi :: thomasBack rest xi

/-- Solve a tridiagonal system given as rows `(a, b, c, r)` (the first
row's `a` and the last row's `c` multiply known zero boundary values). -/
def thomasSolve (rows : List (ℚ × ℚ × ℚ × ℚ)) : List ℚ :=
  (thomasBack (thomasFwd rows 0 0).reverse 0).reverse

/-- Modelled from the spec: the second-derivative coefficients of the
natural cubic spline through the control points (zero at both ends,
interior values from the tridiagonal system). -/
def naturalCs (xs ys : List ℚ) : List ℚ :=
  if xs.length < 3 then List.replicate xs.length 0
  else 0 :: thomasSolve (interiorRows xs ys) ++ [0]

/-- The x-coordinate of the first control point. -/
def firstX (pts : List (ℚ × ℚ)) : ℚ := (pts.headD (0, 0)).1

/-- The x-coordinate of the last control point. -/
def lastX (pts : List (ℚ × ℚ)) : ℚ := (pts.getLastD (0, 0)).1

/-- Modelled from the spec: the smooth interpolant through the control
points — a natural cubic spline, in place of the scipy spline whose
code is not in the repository. -/
def evalSpline (pts : List (ℚ × ℚ)) (x : ℚ) : ℚ :=
  let xs := pts.map Prod.fst
  let ys := pts.map Prod.snd
  evalWithCs xs ys (naturalCs xs ys) x

/-- The abscissas `i_x = np.linspace(g_left_x, g_right_x, g_domain)` at
which `plot_curve` samples the interpolant, spanning the first to the
last control-point x-coordinate. -/
def sampleXs (pts : List (ℚ × ℚ)) (domainSize : ℕ) : List ℚ :=
  linspace (firstX pts) (lastX pts) domainSize

/-- Modelled from the spec: `interpolate(domainSize)` — the interpolant
sampled at `domainSize` evenly spaced abscissas (`is_y = f_spline(i_x)`
in `plot_curve`). -/
def interpolate (pts : List (ℚ × ℚ)) (domainSize : ℕ) : List ℚ :=
  (sampleXs pts domainSize).map (evalSpline pts)

/-! ### Global state and event handlers -/

/-- The constant `g_left_x = 0`. -/
def g_left_x : ℚ := 0

/-- The constant `g_right_x = 1`. -/
def g_right_x : ℚ := 1

/-- The module-level mutable state of `ftabgen.py` that the pipeline
reads and writes. -/
structure GState where
  g_curve_y : List ℚ
  g_table_name : String
  g_domain : ℕ
  g_range : ℕ
  g_table_src_body : String

/-- The control points the GUI maintains: y-values `g_curve_y` at the
fixed abscissas `g_curve_x = np.linspace(g_left_x, g_right_x, gc_sl_n)`. -/
def controlPoints (st : GState) : List (ℚ × ℚ) :=
  List.zip (linspace g_left_x g_right_x st.g_curve_y.length) st.g_curve_y

/-- `plot_curve` from the source, restricted to its state effect:
recompute `g_table_src_body` from the current curve (the plotting calls
have no effect on the pipeline state). -/
def plot_curve (st : GState) : GState :=
  { st with g_table_src_body :=
      generate_table_body st.g_range (interpolate (controlPoints st) st.g_domain) }

/-- The text printed by `generate_source_files` (each `print` call
appends a newline to its argument). -/
def generate_source_files (st : GState) : String :=
  table_inc_body st.g_table_name st.g_domain st.g_range ++ "\n" ++
  table_src_head st.g_table_name st.g_domain st.g_range ++ "\n" ++
  st.g_table_src_body ++ "\n" ++
  table_src_tail ++ "\n"

/-- `export_button_on_clicked` from the source, restricted to its state
effect and emitted text: refresh the body via `plot_curve`, then emit
the artifacts (the `np.save` call performs file I/O outside the
pipeline). -/
def export_button_on_clicked (st : GState) : GState × String :=
  let st1 := plot_curve st
  (st1, generate_source_files st1)

/-- Modelled from the spec: `set_point(index, value)` — no such
function exists in `src/` (`sliders_on_changed` writes only the fixed
in-range slider indices), so the contract of §4.1/§6 of the spec is
modelled directly: replace the y-value at `index` when it lies in
`[0, pointCount)`, otherwise report `IndexError` and leave the
sequence unchanged. -/
def set_point (pts : List ℚ) (index : ℤ) (value : ℚ) : List ℚ × Option String :=
  if 0 ≤ index ∧ index < pts.length then (pts.set index.toNat value, none)
  else (pts, some "IndexError")

/-! ### Helper lemmas -/

/-- The generated header splices `domain_mask d` between fixed
surrounding text, whatever the domain is. -/
theorem mask_splice (name : String) (d r : ℕ) :
    ∃ a b : String, table_inc_body name d r = a ++ domain_mask d ++ b := by
  refine ⟨auto_gen_label ++ "\n" ++ domain_and_range d r ++ "\n" ++
    "#ifndef " ++ defineName name ++ "\n" ++ "#define " ++ defineName name ++ "\n\n" ++
    "#define " ++ strUpper (elem_type r) ++ "_" ++ strUpper name ++ "(x) " ++
    name ++ "[(x) & ",
    "]\n" ++ elem_type r ++ "_t " ++ name ++ "[];\n\n" ++
    "#endif /* " ++ defineName name ++ " */\n", ?_⟩
  simp only [table_inc_body, String.append_assoc]

/-- `elem_type` evaluates to one of the two fixed type names. -/
theorem elem_type_eq (r : ℕ) :
    elem_type r = if 256 < r then "uint16" else "uint8" := rfl

theorem str_data_append (s t : String) : (s ++ t).data = s.data ++ t.data := rfl

theorem natReprAux_getLast (f n : ℕ) (hf : 0 < f) :
    ∃ d, d < 10 ∧ (natReprAux f n).getLast? = some (digitChar d) := by
  cases f with
  | zero => omega
  | succ f =>
    by_cases h : n < 10
    · exact ⟨n, h, by simp [natReprAux, h]⟩
    · exact ⟨n % 10, Nat.mod_lt _ (by omega),
        by simp [natReprAux, h, List.getLast?_concat]⟩

theorem natRepr_getLast (n : ℕ) :
    ∃ d, d < 10 ∧ (natRepr n).getLast? = some (digitChar d) :=
  natReprAux_getLast (n + 1) n (Nat.succ_pos n)

theorem natRepr_ne_nil (n : ℕ) : natRepr n ≠ [] := by
  obtain ⟨d, _, h⟩ := natRepr_getLast n
  exact List.ne_nil_of_mem (List.mem_of_mem_getLast? h)

theorem intRepr_getLast (y : ℤ) :
    ∃ d, d < 10 ∧ (intRepr y).getLast? = some (digitChar d) := by
  unfold intRepr
  split
  · obtain ⟨d, hd, h⟩ := natRepr_getLast (-y).toNat
    refine ⟨d, hd, ?_⟩
    cases hl : natRepr (-y).toNat with
    | nil => exact absurd hl (natRepr_ne_nil _)
    | cons a l =>
      rw [hl] at h
      rw [List.getLast?_cons_cons]
      exact h
  · exact natRepr_getLast _

theorem intRepr_ne_nil (y : ℤ) : intRepr y ≠ [] := by
  obtain ⟨d, _, h⟩ := intRepr_getLast y
  exact List.ne_nil_of_mem (List.mem_of_mem_getLast? h)

theorem padStr_data (y : ℤ) :
    (padStr y).data = List.replicate (6 - (intRepr y).length) ' ' ++ intRepr y := rfl

theorem padStr_getLast (y : ℤ) :
    ∃ d, d < 10 ∧ (padStr y).data.getLast? = some (digitChar d) := by
  obtain ⟨d, hd, h⟩ := intRepr_getLast y
  refine ⟨d, hd, ?_⟩
  rw [padStr_data, List.getLast?_append_of_ne_nil _ (intRepr_ne_nil y)]
  exact h

theorem digitChar_beq_nl (d : ℕ) (h : d < 10) : (digitChar d == '\n') = false := by
  interval_cases d <;> decide

theorem digitChar_ne_comma (d : ℕ) (h : d < 10) : digitChar d ≠ ',' := by
  interval_cases d <;> decide

theorem takeWhile_append_stop {α : Type} (p : α → Bool) (l₁ l₂ : List α)
    (h : ∃ x ∈ l₁, p x = false) :
    (l₁ ++ l₂).takeWhile p = l₁.takeWhile p := by
  induction l₁ with
  | nil => simp at h
  | cons a l ih =>
    obtain ⟨x, hx, hpx⟩ := h
    rcases List.mem_cons.mp hx with rfl | hxl
    · simp [List.takeWhile_cons, hpx]
    · by_cases ha : p a = true
      · simp [List.takeWhile_cons, ha, ih ⟨x, hxl, hpx⟩]
      · simp [List.takeWhile_cons, ha]

theorem trailingNL_append (s t : String) (h : ∃ c ∈ t.data, (c == '\n') = false) :
    trailingNL (s ++ t) = trailingNL t := by
  unfold trailingNL
  rw [str_data_append, List.reverse_append]
  rw [takeWhile_append_stop _ _ _ (by
    obtain ⟨c, hc, hcf⟩ := h
    exact ⟨c, List.mem_reverse.mpr hc, hcf⟩)]

/-- The reversed character data of `padStr y` starts with a decimal
digit. -/
theorem padStr_rev (y : ℤ) :
    ∃ d tl, d < 10 ∧ (padStr y).data.reverse = digitChar d :: tl := by
  obtain ⟨d, hd, h⟩ := padStr_getLast y
  have hh : (padStr y).data.reverse.head? = some (digitChar d) := by
    rw [List.head?_reverse]
    exact h
  cases hl : (padStr y).data.reverse with
  | nil => rw [hl] at hh; simp at hh
  | cons a tl =>
    rw [hl] at hh
    simp at hh
    exact ⟨d, tl, hd, by rw [hh]⟩

theorem chunk_trailing (cnt : ℕ) (y : ℤ) :
    trailingNL (chunk cnt y) =
      if cnt % 32 = 0 then 2 else if cnt % 8 = 0 then 1 else 0 := by
  obtain ⟨d, tl, hd, hrev⟩ := padStr_rev y
  have hnl := digitChar_beq_nl d hd
  by_cases h32 : cnt % 32 = 0
  · have h8 : cnt % 8 = 0 := by omega
    simp [chunk, trailingNL, str_data_append, h8, h32, List.reverse_append, hrev,
      List.takeWhile_cons, hnl]
  · by_cases h8 : cnt % 8 = 0
    · simp [chunk, trailingNL, str_data_append, h8, h32, List.reverse_append, hrev,
        List.takeWhile_cons, hnl]
    · simp [chunk, trailingNL, str_data_append, h8, h32, List.reverse_append, hrev,
        List.takeWhile_cons, hnl]

/-- Every nonempty formatted block contains a character that is not a
newline (the final digit of its first value). -/
theorem formatAux_has_digit (y : ℤ) (ys : List ℤ) (cnt : ℕ) :
    ∃ c ∈ (formatAux (y :: ys) cnt).data, (c == '\n') = false := by
  obtain ⟨d, hd, hlast⟩ := padStr_getLast y
  refine ⟨digitChar d, ?_, digitChar_beq_nl d hd⟩
  have hmem : digitChar d ∈ (padStr y).data :=
    List.mem_of_mem_getLast? hlast
  show digitChar d ∈ (chunk cnt y ++ formatAux ys (cnt + 1)).data
  rw [str_data_append]
  refine List.mem_append_left _ ?_
  simp [chunk, str_data_append, hmem]

theorem formatAux_trailing (ys : List ℤ) (cnt : ℕ) (h : ys ≠ []) :
    trailingNL (formatAux ys cnt) =
      if (cnt + ys.length - 1) % 32 = 0 then 2
      else if (cnt + ys.length - 1) % 8 = 0 then 1 else 0 := by
  induction ys generalizing cnt with
  | nil => exact absurd rfl h
  | cons y ys ih =>
    cases ys with
    | nil =>
      show trailingNL (chunk cnt y ++ formatAux [] (cnt + 1)) = _
      rw [show formatAux [] (cnt + 1) = "" from rfl, String.append_empty]
      simpa using chunk_trailing cnt y
    | cons y2 ys2 =>
      show trailingNL (chunk cnt y ++ formatAux (y2 :: ys2) (cnt + 1)) = _
      rw [trailingNL_append _ _ (formatAux_has_digit y2 ys2 (cnt + 1))]
      rw [ih (cnt + 1) (by simp)]
      have harith : cnt + 1 + (y2 :: ys2).length - 1 =
          cnt + (y :: y2 :: ys2).length - 1 := by
        simp
        omega
      rw [harith]

theorem chunk_getLast (cnt : ℕ) (y : ℤ) :
    ∃ ch, (chunk cnt y).data.getLast? = some ch ∧ ch ≠ ',' := by
  obtain ⟨d, hd, hlast⟩ := padStr_getLast y
  by_cases h32 : cnt % 32 = 0
  · refine ⟨'\n', ?_, by decide⟩
    have h8 : cnt % 8 = 0 := by omega
    simp [chunk, str_data_append, h8, h32]
  · by_cases h8 : cnt % 8 = 0
    · refine ⟨'\n', ?_, by decide⟩
      simp [chunk, str_data_append, h8, h32,
        List.getLast?_append_of_ne_nil _ (show ('\n' :: []) ≠ [] by simp)]
    · refine ⟨digitChar d, ?_, digitChar_ne_comma d hd⟩
      have hppad : (padStr y).data ≠ [] := by
        rw [padStr_data]
        exact fun hc => intRepr_ne_nil y (List.append_eq_nil.mp hc).2
      simp [chunk, str_data_append, h8, h32,
        List.getLast?_append_of_ne_nil _ hppad]
      exact hlast

theorem formatAux_getLast (ys : List ℤ) (cnt : ℕ) (h : ys ≠ []) :
    ∃ ch, (formatAux ys cnt).data.getLast? = some ch ∧ ch ≠ ',' := by
  induction ys generalizing cnt with
  | nil => exact absurd rfl h
  | cons y ys ih =>
    cases ys with
    | nil =>
      show ∃ ch, (chunk cnt y ++ formatAux [] (cnt + 1)).data.getLast? = some ch ∧ ch ≠ ','
      rw [show formatAux [] (cnt + 1) = "" from rfl, String.append_empty]
      exact chunk_getLast cnt y
    | cons y2 ys2 =>
      obtain ⟨ch, hch, hne⟩ := ih (cnt + 1) (by simp)
      refine ⟨ch, ?_, hne⟩
      show (chunk cnt y ++ formatAux (y2 :: ys2) (cnt + 1)).data.getLast? = some ch
      rw [str_data_append, List.getLast?_append_of_ne_nil]
      · exact hch
      · obtain ⟨c, hc, _⟩ := formatAux_has_digit y2 ys2 (cnt + 1)
        exact List.ne_nil_of_mem hc

theorem formatAux_eq_concat (ys : List ℤ) (cnt : ℕ) :
    formatAux ys cnt =
      strConcat ((List.range ys.length).map fun i => chunk (cnt + i) (ys.getD i 0)) := by
  induction ys generalizing cnt with
  | nil => rfl
  | cons y ys ih =>
    have htail : formatAux ys (cnt + 1) =
        strConcat (List.map
          ((fun i => chunk (cnt + i) ((y :: ys).getD i 0)) ∘ Nat.succ)
          (List.range ys.length)) := by
      rw [ih (cnt + 1)]
      apply congrArg strConcat
      apply List.map_congr_left
      intro i _
      have harith : cnt + 1 + i = cnt + Nat.succ i := by omega
      simp only [Function.comp_apply, List.getD_cons_succ, harith]
    rw [List.length_cons, List.range_succ_eq_map, List.map_cons, List.map_map]
    show chunk cnt y ++ formatAux ys (cnt + 1) = _
    rw [strConcat, htail]
    norm_num

theorem chunkSpec_eq_chunk (i : ℕ) (y : ℤ) : chunkSpec i y = chunk (i + 1) y := by
  unfold chunkSpec chunk
  by_cases h : i = 0
  · subst h
    rfl
  · have h1 : ¬ (i + 1 = 1) := by omega
    rw [if_neg h, if_neg h1]

/-- A cubic segment evaluated at its left knot returns the left value. -/
theorem evalSeg_left (xi xi1 yi yi1 ci ci1 : ℚ) :
    evalSeg xi xi1 yi yi1 ci ci1 xi = yi := by
  simp only [evalSeg]
  ring

/-- A cubic segment evaluated at its right knot returns the right value
(for any second-derivative coefficients — the `b` and `d` coefficients
are constructed exactly so). -/
theorem evalSeg_right (xi xi1 yi yi1 ci ci1 : ℚ) (h : xi ≠ xi1) :
    evalSeg xi xi1 yi yi1 ci ci1 xi1 = yi1 := by
  have hne : xi1 - xi ≠ 0 := sub_ne_zero.mpr (Ne.symm h)
  simp only [evalSeg]
  field_simp
  ring

/-- The spline evaluator hits every knot exactly, whatever
second-derivative coefficient list is supplied. -/
theorem evalWithCs_knot (xs : List ℚ) :
    ∀ ys cs : List ℚ, xs.Pairwise (· < ·) → xs.length = ys.length →
      2 ≤ xs.length → ∀ j, j < xs.length →
        evalWithCs xs ys cs (xs.getD j 0) = ys.getD j 0 := by
  induction xs with
  | nil =>
    intro ys cs _ _ h2 j hj
    simp at h2
  | cons x0 xs0 ih =>
    intro ys cs hpw hlen h2 j hj
    cases xs0 with
    | nil => simp at h2
    | cons x1 xs1 =>
      cases ys with
      | nil => simp at hlen
      | cons y0 ys0 =>
        cases ys0 with
        | nil => simp at hlen
        | cons y1 ys1 =>
          have hx01 : x0 < x1 := (List.pairwise_cons.mp hpw).1 x1 (by simp)
          cases xs1 with
          | nil =>
            rcases j with _ | _ | k
            · show evalWithCs [x0, x1] (y0 :: y1 :: ys1) cs x0 = y0
              simp only [evalWithCs, List.getD_cons_zero]
              exact evalSeg_left x0 x1 y0 y1 _ _
            · show evalWithCs [x0, x1] (y0 :: y1 :: ys1) cs x1 = y1
              simp only [evalWithCs, List.getD_cons_zero]
              exact evalSeg_right x0 x1 y0 y1 _ _ (ne_of_lt hx01)
            · simp at hj
              exact absurd hj (by omega)
          | cons x2 xs2 =>
            rcases j with _ | _ | k
            · show evalWithCs (x0 :: x1 :: x2 :: xs2) (y0 :: y1 :: ys1) cs x0 = y0
              simp only [evalWithCs]
              rw [if_pos (le_of_lt hx01)]
              exact evalSeg_left x0 x1 y0 y1 _ _
            · show evalWithCs (x0 :: x1 :: x2 :: xs2) (y0 :: y1 :: ys1) cs x1 = y1
              simp only [evalWithCs]
              rw [if_pos (le_refl x1)]
              exact evalSeg_right x0 x1 y0 y1 _ _ (ne_of_lt hx01)
            · have hklen : k < (x2 :: xs2).length := by
                simp at hj
                simpa using hj
              have hxmem : (x2 :: xs2).getD k 0 ∈ x2 :: xs2 := by
                rw [List.getD_eq_getElem (x2 :: xs2) 0 hklen]
                exact List.getElem_mem hklen
              have hpw1 : (x1 :: x2 :: xs2).Pairwise (· < ·) :=
                (List.pairwise_cons.mp hpw).2
              have hx1lt : x1 < (x2 :: xs2).getD k 0 :=
                (List.pairwise_cons.mp hpw1).1 _ hxmem
              show evalWithCs (x0 :: x1 :: x2 :: xs2) (y0 :: y1 :: ys1) cs
                  ((x0 :: x1 :: x2 :: xs2).getD (k + 2) 0) = (y0 :: y1 :: ys1).getD (k + 2) 0
              rw [List.getD_cons_succ, List.getD_cons_succ, List.getD_cons_succ,
                List.getD_cons_succ]
              simp only [evalWithCs]
              rw [if_neg (not_le.mpr hx1lt)]
              have hrec := ih (y1 :: ys1) (cs.drop 1) hpw1
                (by simpa using hlen) (by simp) (k + 1)
                (by simpa using hklen)
              rw [List.getD_cons_succ, List.getD_cons_succ] at hrec
              exact hrec

/-- The `k`-th sample abscissa in closed form. -/
theorem linspace_getD (lo hi : ℚ) (n k : ℕ) (h : k < n) :
    (linspace lo hi n).getD k 0 = lo + (hi - lo) * k / ((n : ℚ) - 1) := by
  unfold linspace
  rw [List.getD_eq_getElem?_getD, List.getElem?_map, List.getElem?_range h]
  rfl

theorem linspace_length (lo hi : ℚ) (n : ℕ) : (linspace lo hi n).length = n := by
  simp [linspace]

/-! ### Claim theorems -/

/-- Claim C2 counterexample: at the unsupported domain 64 the emitter
does not fail — it produces the header text with the placeholder mask
`"??"` spliced into the access macro. -/
theorem C2_counterexample :
    domain_mask 64 = "??" ∧
    ∃ a b : String, table_inc_body "table" 64 65536 = a ++ "??" ++ b := by
  refine ⟨rfl, ?_⟩
  obtain ⟨a, b, h⟩ := mask_splice "table" 64 65536
  exact ⟨a, b, h⟩

/-- Claim C2 (amended): for domain 128 the emitted bitmask is `"0x7F"`,
for 256 `"0xFF"`, for 512 `"0x1FF"`, for 1024 `"0x3FF"`; for every other
domain value no error is raised — the placeholder mask `"??"` is used
and the header artifact text is still produced with `"??"` in place of
a valid mask. -/
theorem C2_domain_mask (d : ℕ)
    (h128 : d ≠ 128) (h256 : d ≠ 256) (h512 : d ≠ 512) (h1024 : d ≠ 1024) :
    (domain_mask 128 = "0x7F" ∧ domain_mask 256 = "0xFF" ∧
     domain_mask 512 = "0x1FF" ∧ domain_mask 1024 = "0x3FF") ∧
    domain_mask d = "??" ∧
    ∀ (name : String) (r : ℕ), ∃ a b : String,
      table_inc_body name d r = a ++ "??" ++ b := by
  have hmask : domain_mask d = "??" := by
    simp [domain_mask, h128, h256, h512, h1024]
  refine ⟨⟨rfl, rfl, rfl, rfl⟩, hmask, ?_⟩
  intro name r
  obtain ⟨a, b, h⟩ := mask_splice name d r
  exact ⟨a, b, by rw [h, hmask]⟩

/-- Claim C2 witness: the amended claim at the concrete unsupported
domain 64. -/
theorem C2_witness :
    domain_mask 64 = "??" ∧
    ∃ a b : String, table_inc_body "t" 64 256 = a ++ "??" ++ b := by
  have h := C2_domain_mask 64 (by decide) (by decide) (by decide) (by decide)
  exact ⟨h.2.1, h.2.2 "t" 256⟩

/-- Claim C5: the element type is `"uint16"` exactly when `range > 256`
and `"uint8"` otherwise (256 gives the 8-bit type, 257 the 16-bit type);
it is a function of the range alone, and the very same `elem_type r`
string is what appears upper-cased in the header macro prefix, in the
header array declaration, and in the source array definition. -/
theorem C5_elem_type :
    (∀ r : ℕ, 256 < r ↔ elem_type r = "uint16") ∧
    (∀ r : ℕ, r ≤ 256 ↔ elem_type r = "uint8") ∧
    elem_type 256 = "uint8" ∧ elem_type 257 = "uint16" ∧
    ∀ (name : String) (d r : ℕ),
      (∃ a b c : String, table_inc_body name d r =
        a ++ strUpper (elem_type r) ++ b ++ (elem_type r ++ "_t ") ++ c) ∧
      (∃ a b : String, table_src_head name d r =
        a ++ (elem_type r ++ "_t ") ++ b) := by
  refine ⟨?_, ?_, rfl, rfl, ?_⟩
  · intro r
    rw [elem_type_eq]
    by_cases h : 256 < r
    · simp [h]
    · simp [h, show ("uint8" : String) ≠ "uint16" by decide]
  · intro r
    rw [elem_type_eq]
    by_cases h : 256 < r
    · have hle : ¬ r ≤ 256 := by omega
      simp [h, hle, show ("uint16" : String) ≠ "uint8" by decide]
    · have hle : r ≤ 256 := by omega
      simp [h, hle]
  · intro name d r
    constructor
    · refine ⟨auto_gen_label ++ "\n" ++ domain_and_range d r ++ "\n" ++
        "#ifndef " ++ defineName name ++ "\n" ++ "#define " ++ defineName name ++
        "\n\n" ++ "#define ",
        "_" ++ strUpper name ++ "(x) " ++ name ++ "[(x) & " ++ domain_mask d ++ "]\n",
        name ++ "[];\n\n" ++ "#endif /* " ++ defineName name ++ " */\n", ?_⟩
      simp only [table_inc_body, String.append_assoc]
    · refine ⟨auto_gen_label ++ "\n" ++ domain_and_range d r ++ "\n" ++
        "#include \"" ++ name ++ ".h\"\n\n",
        name ++ "[" ++ natStr d ++ "] =\n" ++ "\x7b\n", ?_⟩
      simp only [table_src_head, String.append_assoc]

set_option maxRecDepth 8192 in
/-- Claim C6 counterexample: the header text generated for the default
configuration (`table`, domain 128, range 65536) nowhere contains the
keyword `extern` — the array declaration is emitted without it. -/
theorem C6_counterexample :
    ¬ ("extern".data <:+: (table_inc_body "table" 128 65536).data) := by
  decide

/-- Claim C6 (amended): the emitted header text consists of the
autogenerated-file warning comment, the domain/range summary comment,
an include guard named `UPPER(tableName)_H_`, the access macro
`<ELEMTYPE_UPPER>_<UPPER(tableName)>(x)` expanding to
`tableName[(x) & domainMask]`, and a declaration of the array written
as `<elemtype>_t <tableName>[];` without the `extern` keyword. -/
theorem C6_header_layout (name : String) (d r : ℕ) :
    table_inc_body name d r =
      "/* AUTOGENERATED FILE. DO NOT EDIT. */" ++ "\n" ++
      ("/*\n" ++ "  Domain: 0.." ++ intStr ((d : ℤ) - 1) ++ "\n" ++
        "  Range:  0.." ++ intStr ((r : ℤ) - 1) ++ "\n" ++ "*/") ++ "\n" ++
      "#ifndef " ++ (strUpper name ++ "_H_") ++ "\n" ++
      "#define " ++ (strUpper name ++ "_H_") ++ "\n\n" ++
      "#define " ++ strUpper (elem_type r) ++ "_" ++ strUpper name ++ "(x) " ++
        name ++ "[(x) & " ++ domain_mask d ++ "]\n" ++
      elem_type r ++ "_t " ++ name ++ "[];\n\n" ++
      "#endif /* " ++ (strUpper name ++ "_H_") ++ " */\n" := by
  simp only [table_inc_body, auto_gen_label, domain_and_range, defineName,
    String.append_assoc]

/-- Claim C8: quantization is a pure function — identical sample
sequences and configurations give identical integer sequences — and a
repeated export click on the unchanged state emits byte-identical text
(the body is deterministically recomputed from the same curve). -/
theorem C8_determinism :
    (∀ (r₁ r₂ : ℕ) (s₁ s₂ : List ℚ), r₁ = r₂ → s₁ = s₂ →
      quantizeList r₁ s₁ = quantizeList r₂ s₂) ∧
    ∀ st : GState,
      (export_button_on_clicked (export_button_on_clicked st).1).2 =
        (export_button_on_clicked st).2 := by
  constructor
  · intro r₁ r₂ s₁ s₂ hr hs
    rw [hr, hs]
  · intro st
    rfl

/-- Claim C8 witness: the determinism conjunct at a concrete sample
sequence and range. -/
theorem C8_witness :
    quantizeList 65536 [0, 1] = quantizeList 65536 [0, 1] :=
  C8_determinism.1 65536 65536 [0, 1] [0, 1] rfl rfl

/-- Claim C9: `set_point` replaces the y-value of control point `index`
when `0 ≤ index < pointCount` (same length, new value at `index`, all
other entries untouched, no error), and for every out-of-range index it
reports `IndexError` and returns the control-point sequence unchanged. -/
theorem C9_set_point (pts : List ℚ) (index : ℤ) (value : ℚ) :
    (0 ≤ index → index < pts.length →
      (set_point pts index value).2 = none ∧
      (set_point pts index value).1.length = pts.length ∧
      (set_point pts index value).1.getD index.toNat 0 = value ∧
      ∀ j : ℕ, j ≠ index.toNat →
        (set_point pts index value).1.getD j 0 = pts.getD j 0) ∧
    (¬ (0 ≤ index ∧ index < pts.length) →
      set_point pts index value = (pts, some "IndexError")) := by
  constructor
  · intro h0 hlt
    have hin : (0 ≤ index ∧ index < pts.length) := ⟨h0, hlt⟩
    have hnat : index.toNat < pts.length := by omega
    refine ⟨by simp [set_point, hin], by simp [set_point, hin], ?_, ?_⟩
    · simp [set_point, hin, List.getD_eq_getElem?_getD, List.getElem?_set_self,
        hnat]
    · intro j hj
      simp [set_point, hin, List.getD_eq_getElem?_getD,
        List.getElem?_set_ne (Ne.symm hj)]
  · intro hout
    simp [set_point, hout]

/-- Claim C9 witness: an in-range update at index 1 of a 3-point curve
succeeds and replaces the value; index 5 fails with `IndexError` and
leaves the sequence unchanged. -/
theorem C9_witness :
    ((set_point [0, 0, 0] 1 5).2 = none ∧
      (set_point [0, 0, 0] 1 5).1.getD 1 0 = 5) ∧
    set_point [(0 : ℚ), 0, 0] 5 7 = ([0, 0, 0], some "IndexError") := by
  have hin := (C9_set_point [0, 0, 0] 1 5).1 (by decide) (by decide)
  have hout := (C9_set_point [(0 : ℚ), 0, 0] 5 7).2 (by decide)
  exact ⟨⟨hin.1, hin.2.2.1⟩, hout⟩

/-- Claim C3: the formatted body is exactly the concatenation, over the
0-based positions `i`, of a separator (a single space before the first
value, a comma before every other value), the value right-aligned in a
6-character column (when its decimal rendering fits the column), a line
break after every 8th value and an additional blank line after every
32nd value; and no comma follows the last value. -/
theorem C3_format_layout (ys : List ℤ) :
    formatBody ys =
      strConcat ((List.range ys.length).map fun i => chunkSpec i (ys.getD i 0)) ∧
    (∀ y : ℤ, (intRepr y).length ≤ 6 →
      (padStr y).length = 6 ∧
      (padStr y).data = List.replicate (6 - (intRepr y).length) ' ' ++ intRepr y) ∧
    (ys ≠ [] → ∃ ch, (formatBody ys).data.getLast? = some ch ∧ ch ≠ ',') := by
  refine ⟨?_, ?_, ?_⟩
  · rw [formatBody, formatAux_eq_concat]
    apply congrArg strConcat
    apply List.map_congr_left
    intro i _
    rw [chunkSpec_eq_chunk]
    have harith : 1 + i = i + 1 := by omega
    rw [harith]
  · intro y hy
    refine ⟨?_, padStr_data y⟩
    show (List.replicate (6 - (intRepr y).length) ' ' ++ intRepr y).length = 6
    rw [List.length_append, List.length_replicate]
    omega
  · exact formatAux_getLast ys 1

/-- Claim C3 witness: the layout theorem applied at the concrete value
sequence `[0, 1]`, with the column-width and final-character conjuncts
discharged at concrete inputs. -/
theorem C3_witness :
    formatBody [0, 1] =
      strConcat ((List.range 2).map fun i => chunkSpec i ([(0 : ℤ), 1].getD i 0)) ∧
    (padStr 0).length = 6 ∧
    ∃ ch, (formatBody [(0 : ℤ), 1]).data.getLast? = some ch ∧ ch ≠ ',' :=
  ⟨(C3_format_layout [0, 1]).1,
   ((C3_format_layout [0, 1]).2.1 0 (by decide)).1,
   (C3_format_layout [0, 1]).2.2 (by decide)⟩

/-- Claim C10: for value count `n > 0` the formatted body ends with two
consecutive newlines exactly when `32 ∣ n`, with exactly one newline
when `8 ∣ n` but not `32 ∣ n`, and with no newline otherwise; for
`n = 0` the formatter returns the empty string. -/
theorem C10_trailing_newlines (ys : List ℤ) :
    (ys = [] → formatBody ys = "") ∧
    (ys ≠ [] → trailingNL (formatBody ys) =
      if ys.length % 32 = 0 then 2 else if ys.length % 8 = 0 then 1 else 0) := by
  constructor
  · intro h
    subst h
    rfl
  · intro h
    rw [formatBody, formatAux_trailing ys 1 h]
    have harith : 1 + ys.length - 1 = ys.length := by omega
    rw [harith]

/-- Claim C10 witness: the empty input formats to the empty string; 8
values end with exactly one trailing newline; 32 values end with two. -/
theorem C10_witness :
    formatBody ([] : List ℤ) = "" ∧
    trailingNL (formatBody (List.replicate 8 (0 : ℤ))) = 1 ∧
    trailingNL (formatBody (List.replicate 32 (0 : ℤ))) = 2 := by
  refine ⟨(C10_trailing_newlines []).1 rfl, ?_, ?_⟩
  · rw [(C10_trailing_newlines (List.replicate 8 0)).2 (by decide)]
    decide
  · rw [(C10_trailing_newlines (List.replicate 32 0)).2 (by decide)]
    decide

/-- Claim C1 counterexample: at sample `-1/2` with range 65536 (and the
code's fixed y-window `[0, 1]`), the code quantizes to `-32767`
(truncation toward zero, no clamping), while the claimed
floor-and-clamp rule gives `0`. -/
theorem C1_counterexample :
    quantizeVal 65536 (-1/2) = -32767 ∧
    quantizeSpecVal 65536 0 1 (-1/2) = 0 ∧
    (-32767 : ℤ) ≠ 0 := by
  refine ⟨?_, ?_, by decide⟩
  · unfold quantizeVal ratTrunc
    rw [show (-1/2 : ℚ) * (((65536 : ℕ) : ℚ) - 1) = -65535/2 by push_cast; norm_num,
      if_neg (by norm_num)]
    rw [Int.ceil_eq_iff]
    constructor <;> norm_num
  · unfold quantizeSpecVal
    rw [show ((-1/2 : ℚ) - 0) / (1 - 0) * (((65536 : ℕ) : ℚ) - 1) = -65535/2 by
      push_cast; norm_num]
    rw [show ⌊(-65535/2 : ℚ)⌋ = -32768 by
      rw [Int.floor_eq_iff]; constructor <;> norm_num]
    decide

/-- Claim C1 (amended): quantization applies the same rule to every
sample: `q = int(s * (range - 1))`, i.e. the floor of `s * (range - 1)`
when that product is nonnegative and its ceiling when it is negative
(truncation toward zero); no yMin/yMax normalization and no clamping
are performed. -/
theorem C1_quantize_truncates (r : ℕ) (s : ℚ) (samples : List ℚ) :
    quantizeList r samples = samples.map (quantizeVal r) ∧
    (0 ≤ s * ((r : ℚ) - 1) → quantizeVal r s = ⌊s * ((r : ℚ) - 1)⌋) ∧
    (s * ((r : ℚ) - 1) < 0 → quantizeVal r s = ⌈s * ((r : ℚ) - 1)⌉) := by
  refine ⟨rfl, ?_, ?_⟩
  · intro h
    unfold quantizeVal ratTrunc
    rw [if_pos h]
  · intro h
    unfold quantizeVal ratTrunc
    rw [if_neg (not_le.mpr h)]

/-- Claim C1 witness: the truncation rule at the concrete samples `1/2`
(nonnegative product, floor) and `-1/2` (negative product, ceiling)
with range 65536. -/
theorem C1_witness :
    quantizeVal 65536 (1/2) = ⌊(1/2 : ℚ) * ((65536 : ℚ) - 1)⌋ ∧
    quantizeVal 65536 (-1/2) = ⌈(-1/2 : ℚ) * ((65536 : ℚ) - 1)⌉ :=
  ⟨(C1_quantize_truncates 65536 (1/2) []).2.1 (by norm_num),
   (C1_quantize_truncates 65536 (-1/2) []).2.2 (by norm_num)⟩

/-- Claim C4 counterexample: the sample `2` with range 65536 quantizes
to `131070`, which lies outside `[0, 65535]` — the code applies no
clamping, so out-of-window samples produce out-of-range integers. -/
theorem C4_counterexample :
    quantizeList 65536 [2] = [131070] ∧ ¬ ((131070 : ℤ) ≤ 65535) := by
  refine ⟨?_, by decide⟩
  show [quantizeVal 65536 2] = [131070]
  unfold quantizeVal ratTrunc
  rw [show (2 : ℚ) * (((65536 : ℕ) : ℚ) - 1) = 131070 by push_cast; norm_num,
    if_pos (by norm_num)]
  rw [show ⌊(131070 : ℚ)⌋ = 131070 by
    rw [Int.floor_eq_iff]; constructor <;> norm_num]

/-- Claim C4 (amended): quantization preserves the length of every
sample sequence unconditionally (so the interpolated samples of length
`domain` give `domain` integers, out-of-window overshoots included);
and every element of the result lies in `[0, range-1]` provided every
sample lies in the normalized window `[0, 1]` — without that proviso
the bound fails, since the code applies no clamping. -/
theorem C4_quantize_bounds (r : ℕ) (samples : List ℚ) :
    (quantizeList r samples).length = samples.length ∧
    (1 ≤ r → (∀ s ∈ samples, 0 ≤ s ∧ s ≤ 1) →
      ∀ q ∈ quantizeList r samples, 0 ≤ q ∧ q ≤ (r : ℤ) - 1) := by
  refine ⟨by simp [quantizeList], ?_⟩
  intro hr hs q hq
  rw [quantizeList, List.mem_map] at hq
  obtain ⟨s, hsmem, rfl⟩ := hq
  obtain ⟨h0, h1⟩ := hs s hsmem
  have hr1 : (0 : ℚ) ≤ (r : ℚ) - 1 := by
    have hcast : (1 : ℚ) ≤ r := by exact_mod_cast hr
    linarith
  have hv0 : 0 ≤ s * ((r : ℚ) - 1) := mul_nonneg h0 hr1
  have hv1 : s * ((r : ℚ) - 1) ≤ (r : ℚ) - 1 := by nlinarith
  unfold quantizeVal ratTrunc
  rw [if_pos hv0]
  refine ⟨Int.floor_nonneg.mpr hv0, ?_⟩
  have hfl : ((r : ℤ) - 1 : ℤ) = ⌊((r : ℚ) - 1)⌋ := by
    rw [show ((r : ℚ) - 1) = (((r : ℤ) - 1 : ℤ) : ℚ) by push_cast; ring,
      Int.floor_intCast]
  rw [hfl]
  exact Int.floor_le_floor hv1

/-- Claim C4 witness: length preservation at the out-of-window sequence
`[2, -1/2]` (no hypotheses needed), and the bounds at range 65536 for
the concrete in-window sample sequence `[0, 1/2, 1]`. -/
theorem C4_witness :
    (quantizeList 65536 [2, -1/2]).length = 2 ∧
    ∀ q ∈ quantizeList 65536 [0, 1/2, 1], 0 ≤ q ∧ q ≤ (65536 : ℤ) - 1 := by
  refine ⟨(C4_quantize_bounds 65536 [2, -1/2]).1, ?_⟩
  exact (C4_quantize_bounds 65536 [0, 1/2, 1]).2 (by norm_num) (by
    intro s hs
    simp only [List.mem_cons, List.not_mem_nil, or_false] at hs
    rcases hs with rfl | rfl | rfl <;> norm_num)

/-- Claim C7: for control points with strictly increasing x-coordinates
(at least 2 of them), interpolation returns exactly `domainSize` samples,
those samples are the interpolant evaluated at abscissas that start at
the first control point's x, end at the last control point's x, and are
evenly spaced; the interpolant evaluated at each control point's own
abscissa equals that control point's y-value exactly; and with exactly 2
control points the interpolant is a straight line. -/
theorem C7_interpolation (pts : List (ℚ × ℚ)) (D : ℕ)
    (hlen : 2 ≤ pts.length)
    (hx : (pts.map Prod.fst).Pairwise (· < ·)) :
    (interpolate pts D).length = D ∧
    interpolate pts D = (sampleXs pts D).map (evalSpline pts) ∧
    (2 ≤ D →
      (sampleXs pts D).getD 0 0 = firstX pts ∧
      (sampleXs pts D).getD (D - 1) 0 = lastX pts ∧
      ∀ k, k + 1 < D →
        (sampleXs pts D).getD (k + 1) 0 - (sampleXs pts D).getD k 0 =
          (lastX pts - firstX pts) / ((D : ℚ) - 1)) ∧
    (∀ j, j < pts.length →
      evalSpline pts ((pts.map Prod.fst).getD j 0) = (pts.map Prod.snd).getD j 0) ∧
    (pts.length = 2 → ∃ a b : ℚ, ∀ x : ℚ, evalSpline pts x = a + b * x) := by
  refine ⟨?_, rfl, ?_, ?_, ?_⟩
  · simp [interpolate, sampleXs, linspace]
  · intro hD
    have hDne : (D : ℚ) - 1 ≠ 0 := by
      have h2 : (2 : ℚ) ≤ (D : ℚ) := by exact_mod_cast hD
      linarith
    refine ⟨?_, ?_, ?_⟩
    · unfold sampleXs
      rw [linspace_getD _ _ _ 0 (by omega)]
      norm_num
    · unfold sampleXs
      rw [linspace_getD _ _ _ (D - 1) (by omega)]
      rw [Nat.cast_sub (by omega : 1 ≤ D), Nat.cast_one, mul_div_assoc,
        div_self hDne]
      ring
    · intro k hk
      unfold sampleXs
      rw [linspace_getD _ _ _ (k + 1) (by omega), linspace_getD _ _ _ k (by omega)]
      push_cast
      field_simp
      ring
  · intro j hj
    show evalWithCs (pts.map Prod.fst) (pts.map Prod.snd)
      (naturalCs (pts.map Prod.fst) (pts.map Prod.snd))
      ((pts.map Prod.fst).getD j 0) = (pts.map Prod.snd).getD j 0
    exact evalWithCs_knot (pts.map Prod.fst) (pts.map Prod.snd)
      (naturalCs (pts.map Prod.fst) (pts.map Prod.snd)) hx (by simp)
      (by simpa using hlen) j (by simpa using hj)
  · intro h2
    match pts, h2 with
    | [p, q], _ =>
      refine ⟨p.2 - (q.2 - p.2) / (q.1 - p.1) * p.1, (q.2 - p.2) / (q.1 - p.1), ?_⟩
      intro x
      show evalWithCs [p.1, q.1] [p.2, q.2]
        (naturalCs [p.1, q.1] [p.2, q.2]) x = _
      have hcs : naturalCs [p.1, q.1] [p.2, q.2] = [0, 0] := by
        simp [naturalCs, List.replicate]
      rw [hcs]
      show evalSeg p.1 q.1 p.2 q.2 (([0, 0] : List ℚ).getD 0 0)
        (([0, 0] : List ℚ).getD 1 0) x = _
      simp only [List.getD_cons_zero, List.getD_cons_succ, evalSeg]
      ring

/-- Claim C7 witness: the interpolation contract at the concrete
two-point curve `(0,0), (1,1)` sampled at 4 abscissas — 4 samples come
back and the interpolant passes through the second control point. -/
theorem C7_witness :
    (interpolate [((0 : ℚ), (0 : ℚ)), (1, 1)] 4).length = 4 ∧
    evalSpline [((0 : ℚ), (0 : ℚ)), (1, 1)] 1 = 1 := by
  have h := C7_interpolation [((0 : ℚ), (0 : ℚ)), (1, 1)] 4 (by decide) (by decide)
  refine ⟨h.1, ?_⟩
  have hk := h.2.2.2.1 1 (by decide)
  simpa using hk

end Ftabgen
